import Mathlib

/-!
Verification of the recursive-partitioning decision-tree module
(`decision_tree.hpp`): the histogram accumulator with its associative
merge, the per-row transition, the split evaluator and growth step
(`dt_apply`), prediction, and rendering.  The shipped header only
declares the UDF entry points, so every operation below is modelled
from the module specification.
-/

/-- Modelled from the spec: per-bin sufficient statistics of a histogram
bin — observation count, label sum and label sum-of-squares
(regression target).  The implementation behind
`compute_leaf_stats_transition` / `compute_leaf_stats_merge` is not in
the shipped sources. -/
structure BinStats where
  count : Nat
  labelSum : Int
  labelSumSq : Int
deriving DecidableEq

/-- The all-zero bin statistics (an empty bin). -/
def BinStats.zero : BinStats := ⟨0, 0, 0⟩

/-- Pointwise addition of two bins' statistics. -/
def BinStats.add (a b : BinStats) : BinStats :=
  ⟨a.count + b.count, a.labelSum + b.labelSum, a.labelSumSq + b.labelSumSq⟩

/-- Zip two lists with `f`, keeping the tail of the longer list
unchanged: a bin or entry missing from one side is treated as absent
(zero) there.  This is the shape of the spec's pointwise merge. -/
def zipPad (f : α → α → α) : List α → List α → List α
  | [], ys => ys
  | x :: xs, [] => x :: xs
  | x :: xs, y :: ys => f x y :: zipPad f xs ys

/-- Modelled from the spec: a histogram for one feature is an ordered
sequence of bins. -/
abbrev Hist := List BinStats

/-- Modelled from the spec: the per-leaf entry of an accumulator, one
histogram per feature. -/
abbrev FeatStats := List Hist

/-- Modelled from the spec: an accumulator maps each current leaf
(indexed left-to-right) to its per-feature histograms. -/
abbrev Accumulator := List FeatStats

/-- Pointwise merge of two histograms (missing bins are zero). -/
def mergeBins : Hist → Hist → Hist := zipPad BinStats.add

/-- Pointwise merge of two per-leaf entries, feature by feature. -/
def mergeFeats : FeatStats → FeatStats → FeatStats := zipPad mergeBins

/-- Modelled from the spec: `compute_leaf_stats_merge` — pointwise
addition across all (leaf, feature, bin) triples present in either
input; triples missing from one side count as zero.  The implementation
is not in the shipped sources. -/
def compute_leaf_stats_merge : Accumulator → Accumulator → Accumulator :=
  zipPad mergeFeats

/-- The empty accumulator (merge identity). -/
def emptyAcc : Accumulator := []

/-- Modelled from the spec: one data row — feature values given as bin
or category indices, and a regression label. -/
structure Row where
  features : List Nat
  label : Int
deriving DecidableEq

/-- The single-observation statistics contributed by one row. -/
def rowStats (r : Row) : BinStats := ⟨1, r.label, r.label * r.label⟩

/-- Modelled from the spec: a feature schema gives, per feature, the
number of bins / the size of the category universe. -/
abbrev Schema := List Nat

/-- Modelled from the spec: schema check at the per-row transition
boundary — the row must have exactly one value per feature and every
value must lie inside its feature's domain. -/
def rowOk (schema : Schema) (r : Row) : Bool :=
  r.features.length == schema.length &&
  (List.zip r.features schema).all fun p => decide (p.1 < p.2)

/-- Modelled from the spec: the growing tree — a leaf holds its
accumulated label statistics and a permanently-terminal mark; an
internal node holds a split predicate (feature index and bin
threshold) and owns two children. -/
inductive DTree where
  | leaf (stats : BinStats) (terminal : Bool)
  | node (feat : Nat) (thresh : Nat) (left right : DTree)
deriving DecidableEq

/-- Number of leaves of a tree (leaves are indexed left-to-right). -/
def DTree.numLeaves : DTree → Nat
  | .leaf _ _ => 1
  | .node _ _ l r => l.numLeaves + r.numLeaves

/-- Number of nodes of a tree. -/
def DTree.numNodes : DTree → Nat
  | .leaf _ _ => 1
  | .node _ _ l r => 1 + l.numNodes + r.numNodes

/-- Modelled from the spec: route a row down the tree to its current
leaf and return that leaf's left-to-right index.  A value less than or
equal to the threshold goes left; a missing feature value routes left
(the fixed deterministic routing rule). -/
def DTree.leafIndex : DTree → Row → Nat
  | .leaf _ _, _ => 0
  | .node f th l r, row =>
      match row.features[f]? with
      | none => l.leafIndex row
      | some v => if v ≤ th then l.leafIndex row
                  else l.numLeaves + r.leafIndex row

/-- Update the `n`-th entry of a list with `u`, padding with `p` when
the list is shorter than `n` (absent entries are treated as empty). -/
def updateNth (u : α → α) (p : α) : Nat → List α → List α
  | 0, [] => [u p]
  | 0, x :: xs => u x :: xs
  | n + 1, [] => p :: updateNth u p n []
  | n + 1, x :: xs => x :: updateNth u p n xs

/-- Add statistics `s` into bin `v` of a histogram. -/
def binInc (v : Nat) (s : BinStats) : Hist → Hist :=
  updateNth (fun b => b.add s) BinStats.zero v

/-- Add one row's statistics into every feature's histogram of a leaf
entry: feature `i`'s histogram is incremented at the bin given by the
row's `i`-th feature value. -/
def addRowFeats (s : BinStats) : List Nat → FeatStats → FeatStats
  | [], hs => hs
  | v :: vs, [] => binInc v s [] :: addRowFeats s vs []
  | v :: vs, h :: hs => binInc v s h :: addRowFeats s vs hs

/-- Modelled from the spec: accumulate one row — determine the row's
current leaf by traversing the tree snapshot, then increment the
matching bin in every feature's histogram for that leaf with the row's
label statistics. -/
def accumulate (t : DTree) (acc : Accumulator) (r : Row) : Accumulator :=
  updateNth (fun fs => addRowFeats (rowStats r) r.features fs) [] (t.leafIndex r) acc

/-- Modelled from the spec: `compute_leaf_stats_transition` — the
per-row transition.  A row whose feature values do not match the schema
is rejected with a row-level error; a valid row is accumulated into the
leaf it falls into.  The implementation is not in the shipped
sources. -/
def compute_leaf_stats_transition (schema : Schema) (t : DTree)
    (acc : Accumulator) (r : Row) : Except String Accumulator :=
  if rowOk schema r then .ok (accumulate t acc r)
  else .error "row does not match feature schema"

/-- The host runtime's skip policy around the transition: a rejected
row leaves the shard accumulator as it was. -/
def hostStep (schema : Schema) (t : DTree) (acc : Accumulator) (r : Row) :
    Accumulator :=
  match compute_leaf_stats_transition schema t acc r with
  | .ok a => a
  | .error _ => acc

/-- Modelled from the spec: `initialize_decision_tree` — the initial
tree is a single root leaf.  The implementation is not in the shipped
sources. -/
def initialize_decision_tree : DTree := .leaf BinStats.zero false

/-- Statistics gathered over one shard of rows, scanning row by row
under the host's skip policy for rejected rows. -/
def shardStats (schema : Schema) (t : DTree) (rows : List Row) : Accumulator :=
  rows.foldl (hostStep schema t) emptyAcc

/-- The per-level accumulator obtained by scanning shards independently
and merging the shard accumulators pairwise left to right. -/
def shardedStats (schema : Schema) (t : DTree) (shards : List (List Row)) :
    Accumulator :=
  (shards.map (shardStats schema t)).foldl compute_leaf_stats_merge emptyAcc

/-- An exact rational value represented as an explicit integer fraction
(numerator over a natural denominator); comparisons cross-multiply, so
all score arithmetic is exact integer arithmetic. -/
structure Frac where
  num : Int
  den : Nat
deriving DecidableEq

/-- Strict comparison of two fractions by cross-multiplication. -/
def fracLt (a b : Frac) : Bool :=
  decide (a.num * (b.den : Int) < b.num * (a.den : Int))

/-- Non-strict comparison of two fractions by cross-multiplication. -/
def fracLe (a b : Frac) : Bool :=
  decide (a.num * (b.den : Int) ≤ b.num * (a.den : Int))

/-- Equality of two fractions as rational numbers. -/
def fracEq (a b : Frac) : Bool :=
  decide (a.num * (b.den : Int) = b.num * (a.den : Int))

/-- Total statistics of a histogram (sum over its bins). -/
def binsTotal : Hist → BinStats
  | [] => BinStats.zero
  | b :: bs => b.add (binsTotal bs)

/-- Accumulated statistics of a leaf entry: the total of its first
feature's histogram (every valid row contributes exactly once to every
feature's histogram, so any feature's total carries the leaf's
observation count and label sums). -/
def leafTotal (hists : FeatStats) : BinStats :=
  binsTotal (hists.getD 0 [])

/-- Numerator of `count * variance` of a statistics record: the node
impurity (variance times mass) is `varNum s / s.count`. -/
def varNum (s : BinStats) : Int :=
  (s.count : Int) * s.labelSumSq - s.labelSum * s.labelSum

/-- Positive denominator for the impurity of a statistics record (an
empty record has `varNum = 0`, so the substitute denominator `1` is
harmless). -/
def vden (s : BinStats) : Nat := max s.count 1

/-- Modelled from the spec: the impurity reduction of a candidate
split — parent impurity minus the children's summed impurity
(variance criterion for a regression target), as an exact fraction. -/
def gainFrac (l r : BinStats) : Frac :=
  let p := l.add r
  { num := varNum p * ((vden l : Int) * (vden r : Int))
        - varNum l * ((vden p : Int) * (vden r : Int))
        - varNum r * ((vden p : Int) * (vden l : Int))
  , den := vden p * (vden l * vden r) }

/-- Modelled from the spec: a split candidate — feature, bin threshold,
impurity-reduction score, and the statistics of the two prospective
children. -/
structure SplitInfo where
  feat : Nat
  thresh : Nat
  score : Frac
  lstats : BinStats
  rstats : BinStats
deriving DecidableEq

/-- Build the candidate cutting feature `f`'s histogram after bin `th`:
bins up to and including `th` go left, the rest go right. -/
def mkSplit (f th : Nat) (h : Hist) : SplitInfo :=
  let ls := binsTotal (h.take (th + 1))
  let rs := binsTotal (h.drop (th + 1))
  ⟨f, th, gainFrac ls rs, ls, rs⟩

/-- All candidate cut points of one feature's histogram, thresholds in
increasing order. -/
def featCandidates (f : Nat) (h : Hist) : List SplitInfo :=
  (List.range (h.length - 1)).map fun th => mkSplit f th h

/-- All split candidates of the features numbered from `f` onwards,
enumerated feature by feature in increasing feature order and, within
a feature, in increasing threshold order. -/
def allCandidatesFrom (f : Nat) : FeatStats → List SplitInfo
  | [] => []
  | h :: hs => featCandidates f h ++ allCandidatesFrom (f + 1) hs

/-- All split candidates of a leaf, in the evaluator's enumeration
order: increasing feature index, then increasing threshold. -/
def allCandidates (hists : FeatStats) : List SplitInfo :=
  allCandidatesFrom 0 hists

/-- The strict enumeration order on candidates: lower feature index
first, lower threshold within a feature. -/
def keyLt (a b : SplitInfo) : Prop :=
  a.feat < b.feat ∨ (a.feat = b.feat ∧ a.thresh < b.thresh)

/-- Reflexive closure of the enumeration order. -/
def keyLe (a b : SplitInfo) : Prop := a = b ∨ keyLt a b

/-- Modelled from the spec: training hyperparameters — maximum depth,
minimum samples to split a node, minimum samples per child, and the
minimum impurity reduction a split must achieve. -/
structure Config where
  maxDepth : Nat
  minSplit : Nat
  minBucket : Nat
  minGain : Frac
deriving DecidableEq

/-- A candidate qualifies when both children satisfy the minimum leaf
size and the impurity reduction reaches the configured minimum. -/
def qualifies (cfg : Config) (c : SplitInfo) : Bool :=
  decide (cfg.minBucket ≤ c.lstats.count) &&
  decide (cfg.minBucket ≤ c.rstats.count) &&
  fracLe cfg.minGain c.score

/-- One selection step: a qualifying candidate replaces the incumbent
only when its score is strictly better, so the earliest candidate in
enumeration order wins ties. -/
def pickBetter (cfg : Config) (best : Option SplitInfo) (c : SplitInfo) :
    Option SplitInfo :=
  if qualifies cfg c then
    match best with
    | none => some c
    | some b => if fracLt b.score c.score then some c else some b
  else best

/-- Modelled from the spec: the split evaluator — an empty leaf (zero
accumulated observations) or a leaf below the minimum split size gets
no candidate; otherwise the qualifying candidate with maximum impurity
reduction is chosen, ties broken by lowest feature index then lowest
threshold. -/
def best_split (cfg : Config) (hists : FeatStats) : Option SplitInfo :=
  if (leafTotal hists).count = 0 then none
  else if (leafTotal hists).count < cfg.minSplit then none
  else (allCandidates hists).foldl (pickBetter cfg) none

/-- Modelled from the spec: the recursive worker of `dt_apply` — walk
the current tree; a permanently-terminal leaf is left alone; an open
leaf either becomes an internal node with two fresh leaf children
carrying the winning candidate's left/right statistics (when a
candidate exists and the depth budget allows), or is marked
permanently terminal. -/
def dt_apply_at (cfg : Config) (acc : Accumulator) :
    DTree → Nat → Nat → DTree × Bool
  | .leaf s true, _, _ => (.leaf s true, false)
  | .leaf s false, d, idx =>
      match best_split cfg (acc.getD idx []) with
      | some c =>
          if d < cfg.maxDepth then
            (.node c.feat c.thresh (.leaf c.lstats false) (.leaf c.rstats false),
             true)
          else (.leaf s true, false)
      | none => (.leaf s true, false)
  | .node f th l r, d, idx =>
      let pl := dt_apply_at cfg acc l (d + 1) idx
      let pr := dt_apply_at cfg acc r (d + 1) (idx + l.numLeaves)
      (.node f th pl.1 pr.1, pl.2 || pr.2)

/-- Modelled from the spec: `dt_apply` — one breadth-first growth
level: (tree, merged accumulator) becomes (new tree, did any leaf
split).  The implementation is not in the shipped sources. -/
def dt_apply (cfg : Config) (t : DTree) (acc : Accumulator) : DTree × Bool :=
  dt_apply_at cfg acc t 0 0

/-- The host runtime's level loop: re-scan (through `accOf`, which
recomputes the merged accumulator against the current snapshot), grow
one level, and stop as soon as a level splits no leaf. -/
def trainLoop (cfg : Config) (accOf : DTree → Accumulator) :
    Nat → DTree → DTree
  | 0, t => t
  | fuel + 1, t =>
      let p := dt_apply cfg t (accOf t)
      if p.2 then trainLoop cfg accOf fuel p.1 else p.1

/-- Training driven from a single shard holding all rows. -/
def train_single (cfg : Config) (schema : Schema) (rows : List Row)
    (fuel : Nat) (t : DTree) : DTree :=
  trainLoop cfg (fun t' => shardStats schema t' rows) fuel t

/-- Training driven from independently scanned shards whose
accumulators are merged before every apply step. -/
def train_sharded (cfg : Config) (schema : Schema)
    (shards : List (List Row)) (fuel : Nat) (t : DTree) : DTree :=
  trainLoop cfg (fun t' => shardedStats schema t' shards) fuel t

/-- Modelled from the spec: traverse a finished tree with a row's
feature values down to a leaf and return that leaf's statistics.  The
deterministic routing rule mirrors training: a value less than or
equal to the threshold goes left, a missing value routes left, and an
out-of-range value simply compares against the threshold — never an
error. -/
def DTree.leafFor : DTree → Row → BinStats
  | .leaf s _, _ => s
  | .node f th l r, row =>
      match row.features[f]? with
      | none => l.leafFor row
      | some v => if v ≤ th then l.leafFor row else r.leafFor row

/-- Modelled from the spec: `predict_dt_response` — the mean response
stored at the reached leaf (label sum over observation count).  The
implementation is not in the shipped sources. -/
def predict_dt_response (t : DTree) (r : Row) : Frac :=
  let s := t.leafFor r
  ⟨s.labelSum, vden s⟩

/-- Modelled from the spec: `predict_dt_prob` — the positive-class
probability stored at the reached leaf (for a 0/1 target this is the
label sum over the observation count).  The implementation is not in
the shipped sources. -/
def predict_dt_prob (t : DTree) (r : Row) : Frac :=
  let s := t.leafFor r
  ⟨s.labelSum, vden s⟩

/-- Total statistics of a subtree (sum over its leaves). -/
def DTree.totalStats : DTree → BinStats
  | .leaf s _ => s
  | .node _ _ l r => l.totalStats.add r.totalStats

/-- One record of the serialized tree: node id, depth, a textual
description of the split condition or leaf prediction, and the node's
sample count. -/
structure NodeRec where
  id : Nat
  depth : Nat
  describe : String
  count : Nat
deriving DecidableEq

/-- The record of a leaf node. -/
def leafRec (i d : Nat) (s : BinStats) : NodeRec :=
  ⟨i, d, "leaf with label sum " ++ toString s.labelSum, s.count⟩

/-- The record of an internal node. -/
def nodeRec (i d f th cnt : Nat) : NodeRec :=
  ⟨i, d, "split on feature " ++ toString f ++ " at bin " ++ toString th, cnt⟩

/-- Render one record as a line of text. -/
def fmtRec (n : NodeRec) : String :=
  "node " ++ toString n.id ++ " depth " ++ toString n.depth ++ ": "
    ++ n.describe ++ " (samples " ++ toString n.count ++ ")"

/-- Modelled from the spec: the structured (graph-ready) serialization
worker — a pre-order listing of node records; a node gets id `i`, its
left subtree the ids starting at `i + 1`, its right subtree the ids
after the left subtree. -/
def preorderRecs : DTree → Nat → Nat → List NodeRec
  | .leaf s _, i, d => [leafRec i d s]
  | .node f th l r, i, d =>
      nodeRec i d f th ((l.totalStats.add r.totalStats).count)
        :: (preorderRecs l (i + 1) (d + 1)
            ++ preorderRecs r (i + 1 + l.numNodes) (d + 1))

/-- Modelled from the spec: `display_text_tree` — one line of text per
node, produced by a direct pre-order traversal.  The implementation is
not in the shipped sources. -/
def display_text_tree_at : DTree → Nat → Nat → List String
  | .leaf s _, i, d => [fmtRec (leafRec i d s)]
  | .node f th l r, i, d =>
      fmtRec (nodeRec i d f th ((l.totalStats.add r.totalStats).count))
        :: (display_text_tree_at l (i + 1) (d + 1)
            ++ display_text_tree_at r (i + 1 + l.numNodes) (d + 1))

/-- Modelled from the spec: `display_text_tree` at the root. -/
def display_text_tree (t : DTree) : List String :=
  display_text_tree_at t 0 0

/-- Modelled from the spec: `display_decision_tree` — the structured
(graph-ready) representation of the whole tree. -/
def display_decision_tree (t : DTree) : List NodeRec :=
  preorderRecs t 0 0

/-- Modelled from the spec: `print_decision_tree` — the textual
rendering, the lines of `display_text_tree` joined with newlines. -/
def print_decision_tree (t : DTree) : String :=
  String.intercalate (String.mk [Char.ofNat 10]) (display_text_tree t)

/-- The operations the module exposes, with all inputs other than the
tree under consideration packed into the operation itself. -/
inductive ModOp where
  | initOp
  | transitionOp (schema : Schema) (acc : Accumulator) (r : Row)
  | mergeOp (a b : Accumulator)
  | applyOp (cfg : Config) (acc : Accumulator)
  | printOp
  | responseOp (r : Row)
  | probOp (r : Row)
  | displayOp
  | displayTextOp

/-- The result value an operation hands back to the host. -/
inductive ModOut where
  | tree (t : DTree)
  | accResult (a : Except String Accumulator)
  | acc (a : Accumulator)
  | didSplit (b : Bool)
  | text (s : String)
  | lines (ls : List String)
  | recs (rs : List NodeRec)
  | value (v : Frac)

/-- Run one module operation against the current tree: every operation
returns (the tree afterwards, its result).  Only the growth step
replaces the tree; `initOp` builds a fresh tree and returns it as a
result without touching the current one. -/
def runOp : ModOp → DTree → DTree × ModOut
  | .initOp, t => (t, .tree initialize_decision_tree)
  | .transitionOp schema acc r, t =>
      (t, .accResult (compute_leaf_stats_transition schema t acc r))
  | .mergeOp a b, t => (t, .acc (compute_leaf_stats_merge a b))
  | .applyOp cfg acc, t =>
      ((dt_apply cfg t acc).1, .didSplit (dt_apply cfg t acc).2)
  | .printOp, t => (t, .text (print_decision_tree t))
  | .responseOp r, t => (t, .value (predict_dt_response t r))
  | .probOp r, t => (t, .value (predict_dt_prob t r))
  | .displayOp, t => (t, .recs (display_decision_tree t))
  | .displayTextOp, t => (t, .lines (display_text_tree t))

/-- Open-leaf depth bound: `t.openDeep d k` says every non-terminal
leaf of the subtree `t`, whose root sits at absolute depth `d`, has
absolute depth at least `k`. -/
def DTree.openDeep : DTree → Nat → Nat → Bool
  | .leaf _ true, _, _ => true
  | .leaf _ false, d, k => decide (k ≤ d)
  | .node _ _ l r, d, k => l.openDeep (d + 1) k && r.openDeep (d + 1) k

/-- Merge a whole list of shard accumulators into one (right fold
starting from the empty accumulator). -/
def sumAccs (l : List Accumulator) : Accumulator :=
  l.foldr compute_leaf_stats_merge emptyAcc

/-- Concrete accumulator used to exercise the merge laws. -/
def accW1 : Accumulator := [[[⟨1, 2, 4⟩]]]

/-- Concrete accumulator used to exercise the merge laws. -/
def accW2 : Accumulator := [[[⟨1, 3, 9⟩], [⟨2, 0, 0⟩]], [[⟨1, 1, 1⟩]]]

/-- Concrete accumulator used to exercise the merge laws. -/
def accW3 : Accumulator := [[[⟨0, 0, 0⟩, ⟨1, 5, 25⟩]]]

/-- Concrete histogram with one observation of label 0 in bin 0 and
one of label 2 in bin 1. -/
def histW : Hist := [⟨1, 0, 0⟩, ⟨1, 2, 4⟩]

/-- Concrete per-leaf entry with two identical features, producing a
genuine tie between the two features' best cuts. -/
def histsW : FeatStats := [histW, histW]

/-- Concrete accumulator holding `histsW` at leaf 0. -/
def accW : Accumulator := [histsW]

/-- Concrete configuration used by the witnesses. -/
def cfgW : Config := ⟨3, 0, 0, ⟨0, 1⟩⟩

/-- The candidate the evaluator picks on `histsW` (feature 0, cut
after bin 0). -/
def bestW : SplitInfo := mkSplit 0 0 histW

/-- The tied candidate on feature 1 of `histsW`. -/
def tiedW : SplitInfo := mkSplit 1 0 histW

theorem BinStats.zero_add (a : BinStats) : BinStats.zero.add a = a := by
  simp [BinStats.add, BinStats.zero]

theorem BinStats.add_zero (a : BinStats) : a.add BinStats.zero = a := by
  simp [BinStats.add, BinStats.zero]

theorem BinStats.add_assoc (a b c : BinStats) :
    (a.add b).add c = a.add (b.add c) := by
  simp [BinStats.add, Nat.add_assoc, Int.add_assoc]

theorem BinStats.add_comm (a b : BinStats) : a.add b = b.add a := by
  simp [BinStats.add, Nat.add_comm, Int.add_comm]

theorem zipPad_nil_right (f : α → α → α) (xs : List α) :
    zipPad f xs [] = xs := by
  cases xs <;> rfl

theorem zipPad_assoc (f : α → α → α)
    (hf : ∀ a b c, f (f a b) c = f a (f b c)) :
    ∀ xs ys zs, zipPad f (zipPad f xs ys) zs = zipPad f xs (zipPad f ys zs)
  | [], ys, zs => rfl
  | x :: xs, [], zs => rfl
  | x :: xs, y :: ys, [] => rfl
  | x :: xs, y :: ys, z :: zs => by
      simp only [zipPad, hf, zipPad_assoc f hf xs ys zs]

theorem zipPad_comm (f : α → α → α)
    (hf : ∀ a b, f a b = f b a) :
    ∀ xs ys, zipPad f xs ys = zipPad f ys xs
  | [], [] => rfl
  | [], y :: ys => rfl
  | x :: xs, [] => rfl
  | x :: xs, y :: ys => by
      simp only [zipPad, hf, zipPad_comm f hf xs ys]

theorem mergeBins_assoc (a b c : Hist) :
    mergeBins (mergeBins a b) c = mergeBins a (mergeBins b c) :=
  zipPad_assoc _ BinStats.add_assoc a b c

theorem mergeBins_comm (a b : Hist) : mergeBins a b = mergeBins b a :=
  zipPad_comm _ BinStats.add_comm a b

theorem mergeFeats_assoc (a b c : FeatStats) :
    mergeFeats (mergeFeats a b) c = mergeFeats a (mergeFeats b c) :=
  zipPad_assoc _ mergeBins_assoc a b c

theorem mergeFeats_comm (a b : FeatStats) : mergeFeats a b = mergeFeats b a :=
  zipPad_comm _ mergeBins_comm a b

theorem merge_assoc (a b c : Accumulator) :
    compute_leaf_stats_merge (compute_leaf_stats_merge a b) c
      = compute_leaf_stats_merge a (compute_leaf_stats_merge b c) :=
  zipPad_assoc _ mergeFeats_assoc a b c

theorem merge_comm (a b : Accumulator) :
    compute_leaf_stats_merge a b = compute_leaf_stats_merge b a :=
  zipPad_comm _ mergeFeats_comm a b

theorem merge_empty_left (a : Accumulator) :
    compute_leaf_stats_merge emptyAcc a = a := rfl

theorem merge_empty_right (a : Accumulator) :
    compute_leaf_stats_merge a emptyAcc = a :=
  zipPad_nil_right _ a

theorem updateNth_eq_zipPad (g : α → α → α) (p : α) (u : α → α)
    (hu : ∀ x, u x = g x (u p)) (hp : ∀ x, g x p = x) :
    ∀ (n : Nat) (xs : List α),
      updateNth u p n xs = zipPad g xs (updateNth u p n [])
  | 0, [] => rfl
  | 0, x :: xs => by
      simp only [updateNth, zipPad, zipPad_nil_right, hu x]
  | n + 1, [] => rfl
  | n + 1, x :: xs => by
      simp only [updateNth, zipPad, hp x,
        updateNth_eq_zipPad g p u hu hp n xs]

theorem binInc_delta (v : Nat) (s : BinStats) (h : Hist) :
    binInc v s h = mergeBins h (binInc v s []) := by
  refine updateNth_eq_zipPad _ _ _ ?_ ?_ v h
  · intro x; simp [BinStats.zero_add, BinStats.add_assoc]
  · exact BinStats.add_zero

theorem addRowFeats_delta (s : BinStats) :
    ∀ (vs : List Nat) (hs : FeatStats),
      addRowFeats s vs hs = mergeFeats hs (addRowFeats s vs [])
  | [], hs => by
      simp only [addRowFeats, mergeFeats, zipPad_nil_right]
  | v :: vs, [] => rfl
  | v :: vs, h :: hs => by
      simp only [addRowFeats, mergeFeats, zipPad,
        ← binInc_delta v s h, addRowFeats_delta s vs hs]

theorem accumulate_delta (t : DTree) (acc : Accumulator) (r : Row) :
    accumulate t acc r
      = compute_leaf_stats_merge acc (accumulate t emptyAcc r) := by
  refine updateNth_eq_zipPad _ _ _ ?_ ?_ (t.leafIndex r) acc
  · intro x; exact addRowFeats_delta (rowStats r) r.features x
  · intro x; exact zipPad_nil_right _ x

theorem hostStep_delta (schema : Schema) (t : DTree) (a : Accumulator)
    (r : Row) :
    hostStep schema t a r
      = compute_leaf_stats_merge a (hostStep schema t emptyAcc r) := by
  unfold hostStep compute_leaf_stats_transition
  by_cases hr : rowOk schema r
  · simp only [hr, if_pos]
    exact accumulate_delta t a r
  · simp only [hr, Bool.false_eq_true, if_false]
    exact (merge_empty_right a).symm

theorem foldl_hostStep_merge (schema : Schema) (t : DTree) :
    ∀ (l : List Row) (a : Accumulator),
      l.foldl (hostStep schema t) a
        = compute_leaf_stats_merge a (shardStats schema t l)
  | [], a => (merge_empty_right a).symm
  | r :: l, a => by
      have h1 := foldl_hostStep_merge schema t l (hostStep schema t a r)
      have h2 := foldl_hostStep_merge schema t l (hostStep schema t emptyAcc r)
      simp only [List.foldl_cons, shardStats, List.foldl_cons] at *
      rw [h1, h2, hostStep_delta schema t a r, merge_assoc]

theorem foldl_merge_merge :
    ∀ (l : List Accumulator) (a : Accumulator),
      l.foldl compute_leaf_stats_merge a
        = compute_leaf_stats_merge a (l.foldl compute_leaf_stats_merge emptyAcc)
  | [], a => (merge_empty_right a).symm
  | x :: l, a => by
      have h1 := foldl_merge_merge l (compute_leaf_stats_merge a x)
      have h2 := foldl_merge_merge l (compute_leaf_stats_merge emptyAcc x)
      simp only [List.foldl_cons] at *
      rw [h1, h2, merge_empty_left, merge_assoc]

theorem shardStats_append (schema : Schema) (t : DTree)
    (l1 l2 : List Row) :
    shardStats schema t (l1 ++ l2)
      = compute_leaf_stats_merge (shardStats schema t l1)
          (shardStats schema t l2) := by
  unfold shardStats
  rw [List.foldl_append]
  exact foldl_hostStep_merge schema t l2 _

theorem shardStats_flatten (schema : Schema) (t : DTree) :
    ∀ (shards : List (List Row)),
      shardStats schema t shards.flatten = shardedStats schema t shards
  | [] => rfl
  | s :: ss => by
      simp only [List.flatten_cons, shardedStats, List.map_cons,
        List.foldl_cons, merge_empty_left]
      rw [shardStats_append, shardStats_flatten schema t ss,
        foldl_merge_merge]
      rfl

theorem sumAccs_perm {l1 l2 : List Accumulator} (h : l1.Perm l2) :
    sumAccs l1 = sumAccs l2 := by
  induction h with
  | nil => rfl
  | cons x _ ih => simp only [sumAccs, List.foldr_cons] at *; rw [ih]
  | swap x y l =>
      simp only [sumAccs, List.foldr_cons]
      rw [← merge_assoc, ← merge_assoc, merge_comm y x]
  | trans _ _ ih1 ih2 => exact ih1.trans ih2

/-- C1: accumulator merge is order-independent — `merge` is
associative and commutative, hence folding any permutation of a list
of shard accumulators (any merge order or grouping) yields the same
final histograms, bit for bit on counts and sums. -/
theorem merge_order_independent :
    (∀ a b c : Accumulator,
        compute_leaf_stats_merge a (compute_leaf_stats_merge b c)
          = compute_leaf_stats_merge (compute_leaf_stats_merge a b) c)
  ∧ (∀ a b : Accumulator,
        compute_leaf_stats_merge a b = compute_leaf_stats_merge b a)
  ∧ (∀ l1 l2 : List Accumulator, l1.Perm l2 → sumAccs l1 = sumAccs l2) :=
  ⟨fun a b c => (merge_assoc a b c).symm, merge_comm,
   fun _ _ h => sumAccs_perm h⟩

/-- Witness for C1 at concrete accumulators of unequal shapes. -/
theorem merge_order_independent_witness :
    (compute_leaf_stats_merge accW1 (compute_leaf_stats_merge accW2 accW3)
      = compute_leaf_stats_merge (compute_leaf_stats_merge accW1 accW2) accW3)
  ∧ compute_leaf_stats_merge accW1 accW2
      = compute_leaf_stats_merge accW2 accW1
  ∧ sumAccs [accW1, accW2] = sumAccs [accW2, accW1] :=
  ⟨merge_order_independent.1 accW1 accW2 accW3,
   merge_order_independent.2.1 accW1 accW2,
   merge_order_independent.2.2 [accW1, accW2] [accW2, accW1]
     (List.Perm.swap accW2 accW1 [])⟩

theorem trainLoop_congr (cfg : Config) (a1 a2 : DTree → Accumulator)
    (h : ∀ t, a1 t = a2 t) :
    ∀ (fuel : Nat) (t : DTree),
      trainLoop cfg a1 fuel t = trainLoop cfg a2 fuel t
  | 0, t => rfl
  | fuel + 1, t => by
      simp only [trainLoop, h t]
      by_cases hd : (dt_apply cfg t (a2 t)).2
      · simp only [hd, if_pos, trainLoop_congr cfg a1 a2 h fuel]
      · simp only [hd, if_neg, Bool.false_eq_true, if_false]

/-- C2: single-machine equivalence — training with all rows in a
single shard produces the same tree as training with the rows
partitioned into any shards, each scanned independently and the shard
accumulators merged before every apply step. -/
theorem train_single_eq_train_sharded (cfg : Config) (schema : Schema)
    (shards : List (List Row)) (fuel : Nat) (t : DTree) :
    train_single cfg schema shards.flatten fuel t
      = train_sharded cfg schema shards fuel t := by
  unfold train_single train_sharded
  exact trainLoop_congr cfg _ _
    (fun t' => shardStats_flatten schema t' shards) fuel t

theorem openDeep_zero : ∀ (t : DTree) (d : Nat), t.openDeep d 0 = true
  | .leaf _ true, _ => rfl
  | .leaf _ false, d => by simp [DTree.openDeep]
  | .node _ _ l r, d => by
      simp [DTree.openDeep, openDeep_zero l (d + 1), openDeep_zero r (d + 1)]

theorem openDeep_mono {k' k : Nat} (hk : k' ≤ k) :
    ∀ (t : DTree) (d : Nat), t.openDeep d k = true → t.openDeep d k' = true
  | .leaf _ true, _, _ => rfl
  | .leaf _ false, d, h => by
      simp only [DTree.openDeep, decide_eq_true_eq] at *
      omega
  | .node _ _ l r, d, h => by
      simp only [DTree.openDeep, Bool.and_eq_true] at *
      exact ⟨openDeep_mono hk l (d + 1) h.1, openDeep_mono hk r (d + 1) h.2⟩

theorem dt_apply_at_openDeep (cfg : Config) (acc : Accumulator) :
    ∀ (t : DTree) (d idx k : Nat), t.openDeep d k = true →
      (dt_apply_at cfg acc t d idx).1.openDeep d (k + 1) = true
  | .leaf s true, d, idx, k, _ => rfl
  | .leaf s false, d, idx, k, h => by
      simp only [DTree.openDeep, decide_eq_true_eq] at h
      simp only [dt_apply_at]
      cases best_split cfg (acc.getD idx []) with
      | none => rfl
      | some c =>
          by_cases hd : d < cfg.maxDepth
          · simp only [hd, if_pos, DTree.openDeep, Bool.and_eq_true,
              decide_eq_true_eq]
            omega
          · simp only [hd, if_neg, if_false]
            rfl
  | .node f th l r, d, idx, k, h => by
      simp only [DTree.openDeep, Bool.and_eq_true] at h
      simp only [dt_apply_at, DTree.openDeep, Bool.and_eq_true]
      exact ⟨dt_apply_at_openDeep cfg acc l (d + 1) idx k h.1,
             dt_apply_at_openDeep cfg acc r (d + 1) (idx + l.numLeaves) k h.2⟩

theorem dt_apply_at_no_split (cfg : Config) (acc : Accumulator) :
    ∀ (t : DTree) (d idx : Nat), t.openDeep d cfg.maxDepth = true →
      (dt_apply_at cfg acc t d idx).2 = false
  | .leaf s true, d, idx, _ => rfl
  | .leaf s false, d, idx, h => by
      simp only [DTree.openDeep, decide_eq_true_eq] at h
      simp only [dt_apply_at]
      cases best_split cfg (acc.getD idx []) with
      | none => rfl
      | some c =>
          have hd : ¬ d < cfg.maxDepth := by omega
          simp only [hd, if_neg, if_false]
  | .node f th l r, d, idx, h => by
      simp only [DTree.openDeep, Bool.and_eq_true] at h
      simp only [dt_apply_at, Bool.or_eq_false_iff]
      exact ⟨dt_apply_at_no_split cfg acc l (d + 1) idx h.1,
             dt_apply_at_no_split cfg acc r (d + 1) (idx + l.numLeaves) h.2⟩

theorem trainLoop_stable (cfg : Config) (accOf : DTree → Accumulator) :
    ∀ (i : Nat) (t : DTree) (k : Nat), t.openDeep 0 k = true →
      cfg.maxDepth ≤ k + i → ∀ (extra : Nat),
      trainLoop cfg accOf (i + 1 + extra) t = trainLoop cfg accOf (i + 1) t
  | 0, t, k, hk, hle, extra => by
      have hmax : t.openDeep 0 cfg.maxDepth = true :=
        openDeep_mono (by omega) t 0 hk
      have hns : (dt_apply cfg t (accOf t)).2 = false :=
        dt_apply_at_no_split cfg (accOf t) t 0 0 hmax
      have h1 : 0 + 1 + extra = extra + 1 := by omega
      rw [h1]
      simp only [trainLoop, hns, Bool.false_eq_true, if_false]
  | i + 1, t, k, hk, hle, extra => by
      have h1 : i + 1 + 1 + extra = (i + 1 + extra) + 1 := by omega
      rw [h1]
      simp only [trainLoop]
      by_cases hd : (dt_apply cfg t (accOf t)).2
      · simp only [hd, if_pos]
        exact trainLoop_stable cfg accOf i (dt_apply cfg t (accOf t)).1 (k + 1)
          (dt_apply_at_openDeep cfg (accOf t) t 0 0 k hk) (by omega) extra
      · simp only [hd, if_neg, Bool.false_eq_true, if_false]

/-- C4: termination — the level-wise training loop reaches its fixed
point within `maxDepth + 1` growth steps: any extra fuel beyond that
budget leaves the trained tree unchanged, so the loop never runs
indefinitely (each level either splits some leaf strictly below
`maxDepth` or terminates). -/
theorem training_terminates (cfg : Config) (accOf : DTree → Accumulator)
    (t : DTree) (extra : Nat) :
    trainLoop cfg accOf (cfg.maxDepth + 1 + extra) t
      = trainLoop cfg accOf (cfg.maxDepth + 1) t :=
  trainLoop_stable cfg accOf cfg.maxDepth t 0 (openDeep_zero t 0)
    (by omega) extra

/-- C6: an empty leaf — a leaf whose accumulated statistics carry zero
observations (for instance after a degenerate split) — is treated by
the growth step as terminal, not as an error: `dt_apply_at` marks it
permanently terminal, reports no split, and being a total function it
cannot fail on it. -/
theorem dt_apply_empty_leaf_terminal (cfg : Config) (acc : Accumulator)
    (s : BinStats) (d idx : Nat)
    (h : (leafTotal (acc.getD idx [])).count = 0) :
    dt_apply_at cfg acc (.leaf s false) d idx = (.leaf s true, false) := by
  simp only [dt_apply_at, best_split, h, if_pos]

/-- Witness for C6: the growth step on an open leaf with an empty
accumulator entry. -/
theorem dt_apply_empty_leaf_terminal_witness :
    (leafTotal (emptyAcc.getD 0 [])).count = 0
  ∧ dt_apply_at cfgW emptyAcc (.leaf BinStats.zero false) 0 0
      = (.leaf BinStats.zero true, false) :=
  ⟨rfl, dt_apply_empty_leaf_terminal cfgW emptyAcc BinStats.zero 0 0 rfl⟩

/-- C7: a row whose feature values do not match the schema (wrong
arity or out-of-domain value) is rejected by the per-row transition
with a row-level error, and the accumulator is left unchanged (under
the host's skip policy the shard accumulator after the rejected row is
exactly the accumulator before it). -/
theorem transition_rejects_bad_row (schema : Schema) (t : DTree)
    (acc : Accumulator) (r : Row) (h : rowOk schema r = false) :
    compute_leaf_stats_transition schema t acc r
      = Except.error "row does not match feature schema"
  ∧ hostStep schema t acc r = acc := by
  constructor
  · simp only [compute_leaf_stats_transition, h, Bool.false_eq_true, if_false]
  · simp only [hostStep, compute_leaf_stats_transition, h,
      Bool.false_eq_true, if_false]

/-- Witness for C7: a row with the wrong arity against a one-feature
schema, and a row with an out-of-domain value. -/
theorem transition_rejects_bad_row_witness :
    rowOk [10] ⟨[1, 2], 0⟩ = false
  ∧ compute_leaf_stats_transition [10] initialize_decision_tree accW ⟨[1, 2], 0⟩
      = Except.error "row does not match feature schema"
  ∧ hostStep [10] initialize_decision_tree accW ⟨[1, 2], 0⟩ = accW
  ∧ rowOk [10] ⟨[11], 0⟩ = false
  ∧ hostStep [10] initialize_decision_tree accW ⟨[11], 0⟩ = accW :=
  ⟨by decide,
   (transition_rejects_bad_row [10] initialize_decision_tree accW
      ⟨[1, 2], 0⟩ (by decide)).1,
   (transition_rejects_bad_row [10] initialize_decision_tree accW
      ⟨[1, 2], 0⟩ (by decide)).2,
   by decide,
   (transition_rejects_bad_row [10] initialize_decision_tree accW
      ⟨[11], 0⟩ (by decide)).2⟩

/-- C5: prediction is a pure, deterministic function of (tree, row) —
invoking `predict_dt_response` or `predict_dt_prob` twice through the
module's operation interface returns identical outputs, and neither
invocation changes the tree it was given. -/
theorem predict_pure (t : DTree) (r : Row) :
    (runOp (.responseOp r) t).1 = t
  ∧ (runOp (.responseOp r) ((runOp (.responseOp r) t).1)).2
      = (runOp (.responseOp r) t).2
  ∧ (runOp (.probOp r) t).1 = t
  ∧ (runOp (.probOp r) ((runOp (.probOp r) t).1)).2
      = (runOp (.probOp r) t).2 :=
  ⟨rfl, rfl, rfl, rfl⟩

/-- C10: only the growth step mutates the tree — every exposed
operation except `dt_apply` returns the tree it was given unchanged
(`initialize_decision_tree` only hands back a fresh tree as a result),
while the growth step genuinely can replace the tree. -/
theorem only_dt_apply_mutates :
    (∀ t, (runOp .initOp t).1 = t)
  ∧ (∀ schema acc r t, (runOp (.transitionOp schema acc r) t).1 = t)
  ∧ (∀ a b t, (runOp (.mergeOp a b) t).1 = t)
  ∧ (∀ t, (runOp .printOp t).1 = t)
  ∧ (∀ r t, (runOp (.responseOp r) t).1 = t)
  ∧ (∀ r t, (runOp (.probOp r) t).1 = t)
  ∧ (∀ t, (runOp .displayOp t).1 = t)
  ∧ (∀ t, (runOp .displayTextOp t).1 = t)
  ∧ (∃ cfg acc t, (runOp (.applyOp cfg acc) t).1 ≠ t) :=
  ⟨fun _ => rfl, fun _ _ _ _ => rfl, fun _ _ _ => rfl, fun _ => rfl,
   fun _ _ => rfl, fun _ _ => rfl, fun _ => rfl, fun _ => rfl,
   ⟨cfgW, accW, .leaf BinStats.zero false, by decide⟩⟩

theorem range'_node_split (i nl nr : Nat) :
    List.range' i (1 + nl + nr)
      = i :: (List.range' (i + 1) nl ++ List.range' (i + 1 + nl) nr) := by
  have h := List.range'_append (i + 1) nl nr 1
  simp only [Nat.one_mul] at h
  rw [show 1 + nl + nr = (nl + nr) + 1 by omega, List.range'_succ,
    show nl + nr = nr + nl by omega, ← h]

theorem display_text_tree_at_eq_recs :
    ∀ (t : DTree) (i d : Nat),
      display_text_tree_at t i d = (preorderRecs t i d).map fmtRec
  | .leaf s b, i, d => rfl
  | .node f th l r, i, d => by
      simp only [display_text_tree_at, preorderRecs, List.map_cons,
        List.map_append, display_text_tree_at_eq_recs l (i + 1) (d + 1),
        display_text_tree_at_eq_recs r (i + 1 + l.numNodes) (d + 1)]

theorem preorderRecs_ids :
    ∀ (t : DTree) (i d : Nat),
      (preorderRecs t i d).map NodeRec.id = List.range' i t.numNodes
  | .leaf s b, i, d => by
      simp [preorderRecs, leafRec, DTree.numNodes, List.range'_succ]
  | .node f th l r, i, d => by
      simp only [preorderRecs, List.map_cons, List.map_append,
        preorderRecs_ids l (i + 1) d.succ,
        preorderRecs_ids r (i + 1 + l.numNodes) d.succ,
        DTree.numNodes, nodeRec, range'_node_split]

/-- C9: rendering is a deterministic, order-stable pre-order
traversal — the text lines are exactly the pre-order node records
formatted one per node (id, depth, split condition or leaf prediction,
and sample count), the records number the nodes `0, 1, …, numNodes-1`
in traversal order (so every node is described exactly once), the
output has one line per node, and the printed text joins those same
lines; being functions of the tree alone, two invocations on the same
tree yield identical text. -/
theorem render_preorder_deterministic (t : DTree) :
    display_text_tree t = (display_decision_tree t).map fmtRec
  ∧ (display_decision_tree t).map NodeRec.id = List.range' 0 t.numNodes
  ∧ (display_text_tree t).length = t.numNodes
  ∧ print_decision_tree t
      = String.intercalate (String.mk [Char.ofNat 10]) (display_text_tree t) := by
  refine ⟨display_text_tree_at_eq_recs t 0 0, preorderRecs_ids t 0 0, ?_, rfl⟩
  have h := congrArg List.length (preorderRecs_ids t 0 0)
  simp only [List.length_map, List.length_range'] at h
  simp only [display_text_tree, display_text_tree_at_eq_recs t 0 0,
    List.length_map]
  exact h

theorem crossLt_trans {an bn cn ad bd cd : Int}
    (had : 0 < ad) (hbd : 0 < bd) (hcd : 0 < cd)
    (h1 : an * bd < bn * ad) (h2 : bn * cd < cn * bd) :
    an * cd < cn * ad := by
  have k1 := mul_lt_mul_of_pos_right h1 hcd
  have k2 := mul_lt_mul_of_pos_right h2 had
  have k3 : an * cd * bd < cn * ad * bd := by nlinarith
  exact lt_of_mul_lt_mul_right k3 (le_of_lt hbd)

theorem crossLt_of_lt_of_nlt {an bn cn ad bd cd : Int}
    (had : 0 < ad) (hbd : 0 < bd) (hcd : 0 < cd)
    (h1 : an * bd < bn * ad) (h2 : ¬ cn * bd < bn * cd) :
    an * cd < cn * ad := by
  push_neg at h2
  have k1 := mul_lt_mul_of_pos_right h1 hcd
  have k2 := mul_le_mul_of_nonneg_right h2 (le_of_lt had)
  have k3 : an * cd * bd < cn * ad * bd := by nlinarith
  exact lt_of_mul_lt_mul_right k3 (le_of_lt hbd)

theorem crossLt_congr_left {an bn cn ad bd cd : Int}
    (had : 0 < ad) (hbd : 0 < bd) (hcd : 0 < cd)
    (heq : an * bd = bn * ad) (h2 : bn * cd < cn * bd) :
    an * cd < cn * ad := by
  have k2 := mul_lt_mul_of_pos_right h2 had
  have k3 : an * cd * bd < cn * ad * bd := by nlinarith
  exact lt_of_mul_lt_mul_right k3 (le_of_lt hbd)

theorem crossLt_congr_right {an bn cn ad bd cd : Int}
    (had : 0 < ad) (hbd : 0 < bd) (hcd : 0 < cd)
    (h1 : an * bd < bn * ad) (heq : bn * cd = cn * bd) :
    an * cd < cn * ad := by
  have k1 := mul_lt_mul_of_pos_right h1 hcd
  have k3 : an * cd * bd < cn * ad * bd := by nlinarith
  exact lt_of_mul_lt_mul_right k3 (le_of_lt hbd)

theorem fracLt_irrefl (a : Frac) : fracLt a a = false := by
  simp [fracLt]

theorem denInt_pos {a : Frac} (h : 0 < a.den) : 0 < (a.den : Int) := by
  exact_mod_cast h

theorem fracLt_trans {a b c : Frac} (ha : 0 < a.den) (hb : 0 < b.den)
    (hc : 0 < c.den) (h1 : fracLt a b = true) (h2 : fracLt b c = true) :
    fracLt a c = true := by
  simp only [fracLt, decide_eq_true_eq] at *
  exact crossLt_trans (denInt_pos ha) (denInt_pos hb) (denInt_pos hc) h1 h2

theorem fracLt_of_lt_of_nlt {a b c : Frac} (ha : 0 < a.den) (hb : 0 < b.den)
    (hc : 0 < c.den) (h1 : fracLt a b = true) (h2 : fracLt c b = false) :
    fracLt a c = true := by
  simp only [fracLt, decide_eq_true_eq, decide_eq_false_iff_not] at *
  exact crossLt_of_lt_of_nlt (denInt_pos ha) (denInt_pos hb) (denInt_pos hc)
    h1 h2

theorem fracLt_congr_left {a b c : Frac} (ha : 0 < a.den) (hb : 0 < b.den)
    (hc : 0 < c.den) (heq : fracEq a b = true) (h2 : fracLt b c = true) :
    fracLt a c = true := by
  simp only [fracLt, fracEq, decide_eq_true_eq] at *
  exact crossLt_congr_left (denInt_pos ha) (denInt_pos hb) (denInt_pos hc)
    heq h2

theorem fracLt_congr_right {a b c : Frac} (ha : 0 < a.den) (hb : 0 < b.den)
    (hc : 0 < c.den) (h1 : fracLt a b = true) (heq : fracEq b c = true) :
    fracLt a c = true := by
  simp only [fracLt, fracEq, decide_eq_true_eq] at *
  exact crossLt_congr_right (denInt_pos ha) (denInt_pos hb) (denInt_pos hc)
    h1 heq

theorem fracEq_of_nlt_nlt {a b : Frac} (h1 : fracLt a b = false)
    (h2 : fracLt b a = false) : fracEq a b = true := by
  simp only [fracLt, fracEq, decide_eq_false_iff_not, decide_eq_true_eq] at *
  omega

theorem binsTotal_append :
    ∀ (l1 l2 : Hist), binsTotal (l1 ++ l2) = (binsTotal l1).add (binsTotal l2)
  | [], l2 => by simp [binsTotal, BinStats.zero_add]
  | b :: l1, l2 => by
      simp [binsTotal, binsTotal_append l1 l2, BinStats.add_assoc]

theorem mkSplit_conservation (f th : Nat) (h : Hist) :
    (mkSplit f th h).lstats.add (mkSplit f th h).rstats = binsTotal h := by
  simp only [mkSplit]
  rw [← binsTotal_append, List.take_append_drop]

theorem vden_pos (s : BinStats) : 0 < vden s :=
  Nat.lt_of_lt_of_le Nat.zero_lt_one (Nat.le_max_right _ _)

theorem mkSplit_den_pos (f th : Nat) (h : Hist) :
    0 < (mkSplit f th h).score.den := by
  simp only [mkSplit, gainFrac]
  exact Nat.mul_pos (vden_pos _) (Nat.mul_pos (vden_pos _) (vden_pos _))

theorem mem_featCandidates {f : Nat} {h : Hist} {c : SplitInfo}
    (hc : c ∈ featCandidates f h) :
    ∃ th, th < h.length - 1 ∧ c = mkSplit f th h := by
  simp only [featCandidates, List.mem_map, List.mem_range] at hc
  obtain ⟨th, hth, rfl⟩ := hc
  exact ⟨th, hth, rfl⟩

theorem mem_allCandidatesFrom :
    ∀ (hs : FeatStats) (f : Nat) (c : SplitInfo),
      c ∈ allCandidatesFrom f hs →
      f ≤ c.feat ∧ c.feat - f < hs.length ∧
        c = mkSplit c.feat c.thresh (hs.getD (c.feat - f) [])
  | [], f, c, hc => absurd hc (List.not_mem_nil c)
  | h :: hs, f, c, hc => by
      rcases List.mem_append.mp hc with hc1 | hc2
      · obtain ⟨th, _, rfl⟩ := mem_featCandidates hc1
        refine ⟨Nat.le_refl f, by simp [mkSplit], ?_⟩
        simp [mkSplit, Nat.sub_self]
      · obtain ⟨h1, h2, h3⟩ := mem_allCandidatesFrom hs (f + 1) c hc2
        refine ⟨by omega, by simp; omega, ?_⟩
        have hk : c.feat - f = (c.feat - (f + 1)) + 1 := by omega
        rw [hk, List.getD_cons_succ]
        exact h3

theorem allCandidatesFrom_den_pos {hs : FeatStats} {f : Nat} {c : SplitInfo}
    (hc : c ∈ allCandidatesFrom f hs) : 0 < c.score.den := by
  obtain ⟨_, _, h3⟩ := mem_allCandidatesFrom hs f c hc
  rw [h3]
  exact mkSplit_den_pos _ _ _

theorem pairwise_featCandidates (f : Nat) (h : Hist) :
    (featCandidates f h).Pairwise keyLt := by
  unfold featCandidates
  rw [List.pairwise_map]
  exact (List.pairwise_lt_range _).imp fun hab => Or.inr ⟨rfl, hab⟩

theorem pairwise_allCandidatesFrom :
    ∀ (hs : FeatStats) (f : Nat), (allCandidatesFrom f hs).Pairwise keyLt
  | [], f => List.Pairwise.nil
  | h :: hs, f => by
      unfold allCandidatesFrom
      refine List.pairwise_append.mpr
        ⟨pairwise_featCandidates f h, pairwise_allCandidatesFrom hs (f + 1), ?_⟩
      intro x hx y hy
      obtain ⟨th, _, rfl⟩ := mem_featCandidates hx
      have hy1 := (mem_allCandidatesFrom hs (f + 1) y hy).1
      exact Or.inl (by simp [mkSplit]; omega)

theorem pickAux_spec (cfg : Config) :
    ∀ (cands : List SplitInfo) (b : SplitInfo),
      0 < b.score.den →
      (∀ c ∈ cands, 0 < c.score.den) →
      (∀ c ∈ cands, keyLt b c) →
      cands.Pairwise keyLt →
      qualifies cfg b = true →
      ∀ r, cands.foldl (pickBetter cfg) (some b) = some r →
        (r = b ∨ r ∈ cands) ∧ qualifies cfg r = true ∧
        fracLt r.score b.score = false ∧
        (fracEq r.score b.score = true → r = b) ∧
        ∀ c ∈ cands, qualifies cfg c = true →
          fracLt r.score c.score = false ∧
          (fracEq r.score c.score = true → keyLe r c)
  | [], b, hbd, _, _, _, hqb, r, hr => by
      simp only [List.foldl_nil, Option.some.injEq] at hr
      subst hr
      exact ⟨Or.inl rfl, hqb, fracLt_irrefl _, fun _ => rfl,
        fun c hc => absurd hc (List.not_mem_nil c)⟩
  | c :: cands, b, hbd, hds, hkb, hpw, hqb, r, hr => by
      have hcd : 0 < c.score.den := hds c (List.mem_cons_self c cands)
      have hds' : ∀ x ∈ cands, 0 < x.score.den :=
        fun x hx => hds x (List.mem_cons_of_mem c hx)
      have hkbc : keyLt b c := hkb c (List.mem_cons_self c cands)
      have hkc : ∀ x ∈ cands, keyLt c x := (List.pairwise_cons.mp hpw).1
      have hpw' : cands.Pairwise keyLt := (List.pairwise_cons.mp hpw).2
      simp only [List.foldl_cons] at hr
      by_cases hq : qualifies cfg c = true
      · by_cases hlt : fracLt b.score c.score = true
        · rw [show pickBetter cfg (some b) c = some c by
            simp [pickBetter, hq, hlt]] at hr
          obtain ⟨hmem, hqr, hrc_nlt, hrc_eq, htail⟩ :=
            pickAux_spec cfg cands c hcd hds' hkc hpw' hq r hr
          have hrd : 0 < r.score.den := by
            rcases hmem with rfl | hm
            · exact hcd
            · exact hds' r hm
          have hrb_nlt : fracLt r.score b.score = false := by
            cases hx : fracLt r.score b.score
            · rfl
            · exact absurd (fracLt_trans hrd hbd hcd hx hlt)
                (by simp [hrc_nlt])
          have hmem2 : r = b ∨ r ∈ c :: cands :=
        Or.inr (List.mem_cons.mpr hmem)
          refine ⟨hmem2, hqr, hrb_nlt, ?_, ?_⟩
          · intro he
            exact absurd (fracLt_congr_left hrd hbd hcd he hlt)
              (by simp [hrc_nlt])
          · intro x hx hqx
            rcases List.mem_cons.mp hx with rfl | hm
            · exact ⟨hrc_nlt, fun he => Or.inl (hrc_eq he)⟩
            · exact htail x hm hqx
        · rw [show pickBetter cfg (some b) c = some b by
            simp [pickBetter, hq, hlt]] at hr
          obtain ⟨hmem, hqr, hrb_nlt, hrb_eq, htail⟩ :=
            pickAux_spec cfg cands b hbd hds' (fun x hx => hkb x
              (List.mem_cons_of_mem c hx)) hpw' hqb r hr
          have hrd : 0 < r.score.den := by
            rcases hmem with rfl | hm
            · exact hbd
            · exact hds' r hm
          have hmem2 : r = b ∨ r ∈ c :: cands :=
        hmem.imp id (List.mem_cons_of_mem c)
          refine ⟨hmem2, hqr, hrb_nlt, hrb_eq, ?_⟩
          intro x hx hqx
          rcases List.mem_cons.mp hx with rfl | hm
          · have hxc_nlt : fracLt r.score x.score = false := by
              cases hy : fracLt r.score x.score
              · rfl
              · exact absurd (fracLt_of_lt_of_nlt hrd hcd hbd hy
                  (by simpa using hlt)) (by simp [hrb_nlt])
            refine ⟨hxc_nlt, fun he => ?_⟩
            have hbr_nlt : fracLt b.score r.score = false := by
              cases hy : fracLt b.score r.score
              · rfl
              · exact absurd (fracLt_congr_right hbd hrd hcd hy he)
                  (by simpa using hlt)
            have heq := fracEq_of_nlt_nlt hrb_nlt hbr_nlt
            rw [hrb_eq heq]
            exact Or.inr hkbc
          · exact htail x hm hqx
      · rw [show pickBetter cfg (some b) c = some b by
            simp [pickBetter, hq]] at hr
        obtain ⟨hmem, hqr, hrb_nlt, hrb_eq, htail⟩ :=
          pickAux_spec cfg cands b hbd hds' (fun x hx => hkb x
            (List.mem_cons_of_mem c hx)) hpw' hqb r hr
        have hmem2 : r = b ∨ r ∈ c :: cands :=
        hmem.imp id (List.mem_cons_of_mem c)
        refine ⟨hmem2, hqr, hrb_nlt, hrb_eq, ?_⟩
        intro x hx hqx
        rcases List.mem_cons.mp hx with rfl | hm
        · exact absurd hqx (by simp [hq])
        · exact htail x hm hqx

theorem pickNone_spec (cfg : Config) :
    ∀ (cands : List SplitInfo),
      (∀ c ∈ cands, 0 < c.score.den) →
      cands.Pairwise keyLt →
      ∀ r, cands.foldl (pickBetter cfg) none = some r →
        r ∈ cands ∧ qualifies cfg r = true ∧
        ∀ c ∈ cands, qualifies cfg c = true →
          fracLt r.score c.score = false ∧
          (fracEq r.score c.score = true → keyLe r c)
  | [], _, _, r, hr => by simp at hr
  | c :: cands, hds, hpw, r, hr => by
      have hcd : 0 < c.score.den := hds c (List.mem_cons_self c cands)
      have hds' : ∀ x ∈ cands, 0 < x.score.den :=
        fun x hx => hds x (List.mem_cons_of_mem c hx)
      have hkc : ∀ x ∈ cands, keyLt c x := (List.pairwise_cons.mp hpw).1
      have hpw' : cands.Pairwise keyLt := (List.pairwise_cons.mp hpw).2
      simp only [List.foldl_cons] at hr
      by_cases hq : qualifies cfg c = true
      · rw [show pickBetter cfg none c = some c by
          simp [pickBetter, hq]] at hr
        obtain ⟨hmem, hqr, hrc_nlt, hrc_eq, htail⟩ :=
          pickAux_spec cfg cands c hcd hds' hkc hpw' hq r hr
        refine ⟨List.mem_cons.mpr hmem, hqr, ?_⟩
        intro x hx hqx
        rcases List.mem_cons.mp hx with rfl | hm
        · exact ⟨hrc_nlt, fun he => Or.inl (hrc_eq he)⟩
        · exact htail x hm hqx
      · rw [show pickBetter cfg none c = none by
          simp [pickBetter, hq]] at hr
        obtain ⟨hmem, hqr, htail⟩ := pickNone_spec cfg cands hds' hpw' r hr
        refine ⟨List.mem_cons_of_mem c hmem, hqr, ?_⟩
        intro x hx hqx
        rcases List.mem_cons.mp hx with rfl | hm
        · exact absurd hqx (by simp [hq])
        · exact htail x hm hqx

theorem best_split_some_spec {cfg : Config} {hists : FeatStats}
    {c : SplitInfo} (h : best_split cfg hists = some c) :
    c ∈ allCandidates hists ∧ qualifies cfg c = true ∧
    ∀ x ∈ allCandidates hists, qualifies cfg x = true →
      fracLt c.score x.score = false ∧
      (fracEq c.score x.score = true → keyLe c x) := by
  unfold best_split at h
  by_cases h0 : (leafTotal hists).count = 0
  · simp [h0] at h
  · by_cases h1 : (leafTotal hists).count < cfg.minSplit
    · simp [h0, h1] at h
    · simp only [h0, h1, if_false, if_neg] at h
      exact pickNone_spec cfg (allCandidates hists)
        (fun x hx => allCandidatesFrom_den_pos hx)
        (pairwise_allCandidatesFrom hists 0) c h

/-- C8: deterministic tie-break — when the evaluator returns a split,
that split is a qualifying candidate achieving the maximum
impurity-reduction score, and among all qualifying candidates with the
same best score it has the lowest feature index and, within that
feature, the lowest threshold; the choice is a pure function of the
inputs, hence reproducible across runs. -/
theorem best_split_tie_break (cfg : Config) (hists : FeatStats)
    (c : SplitInfo) (h : best_split cfg hists = some c) :
    c ∈ allCandidates hists ∧ qualifies cfg c = true ∧
    ∀ x ∈ allCandidates hists, qualifies cfg x = true →
      fracLt c.score x.score = false ∧
      (fracEq c.score x.score = true →
        c.feat < x.feat ∨ (c.feat = x.feat ∧ c.thresh ≤ x.thresh)) := by
  obtain ⟨h1, h2, h3⟩ := best_split_some_spec h
  refine ⟨h1, h2, ?_⟩
  intro x hx hqx
  obtain ⟨h4, h5⟩ := h3 x hx hqx
  refine ⟨h4, fun he => ?_⟩
  rcases h5 he with rfl | hk
  · exact Or.inr ⟨rfl, Nat.le_refl _⟩
  · rcases hk with hk1 | ⟨hk1, hk2⟩
    · exact Or.inl hk1
    · exact Or.inr ⟨hk1, Nat.le_of_lt hk2⟩

/-- Witness for C8 on a leaf whose two identical features produce a
genuine tie: the evaluator picks feature 0. -/
theorem best_split_tie_break_witness :
    bestW ∈ allCandidates histsW ∧ qualifies cfgW bestW = true ∧
    ∀ x ∈ allCandidates histsW, qualifies cfgW x = true →
      fracLt bestW.score x.score = false ∧
      (fracEq bestW.score x.score = true →
        bestW.feat < x.feat ∨ (bestW.feat = x.feat ∧ bestW.thresh ≤ x.thresh)) :=
  best_split_tie_break cfgW histsW bestW (by decide)

/-- C3: conservation of mass — whenever the growth step turns an open
leaf into a split node, the two children's statistics add up exactly
(counts, label sums and label sums-of-squares) to the parent leaf's
pre-split accumulated statistics: the total of the chosen feature's
histogram for that leaf, which (whenever the accumulator's features
agree on their totals, as any accumulator built from schema-conforming
rows does) is the parent leaf's accumulated statistics `leafTotal`. -/
theorem dt_apply_split_conservation (cfg : Config) (acc : Accumulator)
    (s : BinStats) (d idx f th : Nat) (ls rs : BinStats) (b1 b2 did : Bool)
    (h : dt_apply_at cfg acc (.leaf s false) d idx
          = (.node f th (.leaf ls b1) (.leaf rs b2), did)) :
    ls.add rs = binsTotal ((acc.getD idx []).getD f [])
  ∧ ((∀ j, j < (acc.getD idx []).length →
        binsTotal ((acc.getD idx []).getD j []) = leafTotal (acc.getD idx [])) →
      ls.add rs = leafTotal (acc.getD idx [])) := by
  cases hb : best_split cfg (acc.getD idx []) with
  | none =>
      simp only [dt_apply_at, hb] at h
      simp at h
  | some c =>
      by_cases hd : d < cfg.maxDepth
      · simp only [dt_apply_at, hb, hd, if_pos, Prod.mk.injEq,
          DTree.node.injEq, DTree.leaf.injEq] at h
        obtain ⟨⟨hf, hth, ⟨hls, -⟩, hrs, -⟩, -⟩ := h
        have hmem : c ∈ allCandidatesFrom 0 (acc.getD idx []) :=
          (best_split_some_spec hb).1
        obtain ⟨-, hlen, hchar⟩ :=
          mem_allCandidatesFrom (acc.getD idx []) 0 c hmem
        simp only [Nat.sub_zero] at hlen hchar
        have hcons : c.lstats.add c.rstats
            = binsTotal ((acc.getD idx []).getD c.feat []) := by
          conv_lhs => rw [hchar]
          exact mkSplit_conservation _ _ _
        constructor
        · rw [← hf, ← hls, ← hrs]
          exact hcons
        · intro hu
          rw [← hls, ← hrs, hcons]
          exact hu c.feat hlen
      · simp only [dt_apply_at, hb] at h
        rw [if_neg hd] at h
        simp at h

/-- Witness for C3 at a concrete one-leaf tree and accumulator. -/
theorem dt_apply_split_conservation_witness :
    BinStats.add ⟨1, 0, 0⟩ ⟨1, 2, 4⟩ = binsTotal ((accW.getD 0 []).getD 0 [])
  ∧ ((∀ j, j < (accW.getD 0 []).length →
        binsTotal ((accW.getD 0 []).getD j []) = leafTotal (accW.getD 0 [])) →
      BinStats.add ⟨1, 0, 0⟩ ⟨1, 2, 4⟩ = leafTotal (accW.getD 0 [])) :=
  dt_apply_split_conservation cfgW accW BinStats.zero 0 0 0 0
    ⟨1, 0, 0⟩ ⟨1, 2, 4⟩ false false true (by decide)
